import Mathlib

/-!
Verification of the self-learning AI agent (src/backend/ai_agent.py).

The Python code is shallowly embedded: pure helpers become Lean functions,
the mutable agent state (quality milestones, rate-limit timestamps) is
threaded explicitly, and the network-dependent stages (candidate
generation, peer review, the per-attempt HTTP responses of a gateway
call) are supplied as explicit oracle arguments, so each claim is a
statement about the deterministic control flow of the source.

Scores and wall-clock times are modelled as rationals: the Python code
manipulates IEEE doubles, and every comparison appearing in the claims
is far from any rounding boundary, so the rational model is faithful
for the stated properties.
-/

namespace AgentSpec

/-! ## Basic string helpers (Python truthiness / str.strip) -/

/-- A character stripped by Python str.strip() with no arguments. -/
def isPySpace (c : Char) : Bool :=
  c = ' ' || c = '\t' || c = '\n' || c = '\r' || c = '\x0b' || c = '\x0c'

/-- Python `not s.strip()`: the string contains only whitespace. -/
def isBlank (s : String) : Bool :=
  s.toList.all isPySpace

/-- Python s.strip(): drop leading and trailing whitespace. -/
def pyStrip (s : String) : String :=
  (((s.toList.dropWhile isPySpace).reverse.dropWhile isPySpace).reverse).asString

/-! ## Configuration (SecurityConfig / ModelConfig dataclasses) -/

structure SecurityConfig where
  max_prompt_length : Nat
  max_tokens : Nat
  rate_limit_requests : Nat
  rate_limit_window : Int
deriving DecidableEq

structure ModelConfig where
  api_key : String
  base_url : String
  models : List String
  review_model : String
  timeout : Nat
  max_retries : Nat
deriving DecidableEq

/-! ## _sanitize_prompt

The Python body deletes every match of the tag regex (an opening angle
bracket, one or more characters other than a closing angle bracket,
then a closing angle bracket), collapses every match of the long-run
regex (ten or more newlines, matched greedily) to five newlines, and
slices to max_prompt_length; it is embedded below on `List Char`.
At a position holding '<', the tag regex matches up to the first later
'>' provided at least one character lies between, and the match is
deleted; the newline regex greedily consumes a maximal newline run. -/

/-- Scan to the first '>', returning the remainder after it. -/
def dropToGt : List Char → Option (List Char)
  | [] => none
  | c :: cs => if c = '>' then some cs else dropToGt cs

theorem dropToGt_length : ∀ l t, dropToGt l = some t → t.length < l.length := by
  intro l
  induction l with
  | nil => intro t h; simp [dropToGt] at h
  | cons c cs ih =>
    intro t h
    by_cases hc : c = '>'
    · simp [dropToGt, hc] at h
      simp [← h]
    · simp [dropToGt, hc] at h
      exact Nat.lt_succ_of_lt (ih t h)

/-- The regex match attempt at a '<': given the characters after the '<',
return the remainder after the closing '>' when the match succeeds. -/
def matchTag : List Char → Option (List Char)
  | [] => none
  | d :: ds => if d = '>' then none else dropToGt ds

theorem matchTag_length : ∀ l t, matchTag l = some t → t.length < l.length := by
  intro l t h
  cases l with
  | nil => simp [matchTag] at h
  | cons d ds =>
    by_cases hd : d = '>'
    · simp [matchTag, hd] at h
    · simp [matchTag, hd] at h
      exact Nat.lt_succ_of_lt (dropToGt_length ds t h)

/-- First substitution: strip angle-bracket tags. -/
def stripTags (l : List Char) : List Char :=
  match l with
  | [] => []
  | c :: cs =>
    if c = '<' then
      match hm : matchTag cs with
      | some tail => stripTags tail
      | none => '<' :: stripTags cs
    else c :: stripTags cs
termination_by l.length
decreasing_by
  · exact Nat.lt_succ_of_lt (matchTag_length cs tail hm)
  · simp
  · simp

/-- Length of the leading newline run. -/
def countNl : List Char → Nat
  | [] => 0
  | c :: cs => if c = '\n' then countNl cs + 1 else 0

/-- Drop the leading newline run. -/
def dropNl : List Char → List Char
  | [] => []
  | c :: cs => if c = '\n' then dropNl cs else c :: cs

theorem dropNl_length : ∀ l, (dropNl l).length ≤ l.length := by
  intro l
  induction l with
  | nil => simp [dropNl]
  | cons c cs ih =>
    by_cases hc : c = '\n'
    · simp [dropNl, hc]
      exact Nat.le_succ_of_le ih
    · simp [dropNl, hc]

/-- Second substitution: collapse newline runs of length ten or more
down to five newlines. -/
def collapseNl (l : List Char) : List Char :=
  match l with
  | [] => []
  | c :: cs =>
    if c = '\n' then
      (if 10 ≤ countNl cs + 1 then List.replicate 5 '\n'
       else List.replicate (countNl cs + 1) '\n') ++ collapseNl (dropNl cs)
    else c :: collapseNl cs
termination_by l.length
decreasing_by
  · exact Nat.lt_succ_of_le (dropNl_length cs)
  · simp

/-- _sanitize_prompt: strip tags, collapse newline runs, truncate. -/
def sanitize_prompt (max_prompt_length : Nat) (s : String) : String :=
  ((collapseNl (stripTags s.toList)).take max_prompt_length).asString

/-- No tag-regex match anywhere: at every '<' of the list, the match
attempt against the remainder fails. -/
def Tagfree (l : List Char) : Prop :=
  ∀ cs, List.IsSuffix ('<' :: cs) l → matchTag cs = none

/-- Every newline run has length at most nine (each run is the leading
run of some suffix). -/
def NoLongRun (l : List Char) : Prop :=
  ∀ cs, List.IsSuffix cs l → countNl cs ≤ 9

/-! ## _check_rate_limit

The Python body prunes `request_timestamps` to entries with
now - ts < rate_limit_window (mutating the field), raises
SecurityException("Rate limit exceeded") when the pruned count reaches
rate_limit_requests, and otherwise appends `now`.  The pair returned
below is (new timestamp list, outcome). -/

def check_rate_limit (cfg : SecurityConfig) (timestamps : List ℚ) (now : ℚ) :
    List ℚ × Except String Unit :=
  let pruned := timestamps.filter fun ts => decide (now - ts < (cfg.rate_limit_window : ℚ))
  if cfg.rate_limit_requests ≤ pruned.length then (pruned, Except.error "Rate limit exceeded")
  else (pruned ++ [now], Except.ok ())

/-- Successive _check_rate_limit calls at the given times, starting from
the given timestamp window; `true` records a call that passed. -/
def runCalls (cfg : SecurityConfig) : List ℚ → List ℚ → List Bool
  | _, [] => []
  | ts, now :: rest =>
    match check_rate_limit cfg ts now with
    | (ts2, Except.ok _) => true :: runCalls cfg ts2 rest
    | (ts2, Except.error _) => false :: runCalls cfg ts2 rest

/-! ## _should_trigger_improvement -/

/-- Python max() over a list, 0 on the empty list (never consulted there). -/
def maxQ : List ℚ → ℚ
  | [] => 0
  | x :: xs => xs.foldl max x

def should_trigger_improvement (threshold : ℚ) (milestones : List ℚ) (current_score : ℚ) :
    Bool :=
  if milestones = [] then true
  else
    let best_previous := maxQ (milestones.drop (milestones.length - 10))
    decide ((current_score - best_previous) / (best_previous + 1 / 100000) > threshold
      ∧ current_score > 5)

/-! ## Candidates and reviews -/

structure Candidate where
  text : String
  model : String
  request_id : String
deriving DecidableEq

/-- The dictionary produced by _parse_review_response; a field is `none`
when the parsed JSON object lacked that key. -/
structure ReviewData where
  score : Option ℚ
  flaw : Option String
  improved : Option String
deriving DecidableEq

/-- A review after review_data.update(...): the parsed fields plus the
back-references attached in _peer_review. -/
structure Review where
  score : Option ℚ
  flaw : Option String
  improved : Option String
  original : String
  model : String
  reviewer : String
deriving DecidableEq

instance : Inhabited Review := ⟨⟨none, none, none, "", "", ""⟩⟩

/-- review_data.get("score", 0). -/
def ReviewData.scoreD (r : ReviewData) : ℚ := r.score.getD 0

/-- winner.get("score", 0). -/
def Review.scoreD (r : Review) : ℚ := r.score.getD 0

/-- _validate_review_scores: 0 <= review_data.get("score", 0) <= 10. -/
def validate_review_scores (r : ReviewData) : Bool :=
  decide (0 ≤ r.scoreD ∧ r.scoreD ≤ 10)

/-- _build_review_prompt: the review template with the task and the
candidate solution embedded. -/
def build_review_prompt (task solution : String) : String :=
  "TASK: " ++ task ++ "\n\nCANDIDATE SOLUTION:\n" ++ solution ++
  "\n\nApply THIS scoring rubric rigorously:\n\n" ++
  "1. Factual Accuracy (0-10): Verify all facts. Deduct for errors.\n" ++
  "2. Reasoning Depth (0-10): Evaluate logical completeness.\n" ++
  "3. Novelty/Value (0-10): Assess originality.\n" ++
  "4. Conciseness (0-10): Evaluate clarity and implementability.\n\n" ++
  "SCORING FORMULA: Weighted average (Accuracy:40%, Depth:30%, Novelty:20%, Conciseness:10%)\n\n" ++
  "CRITICAL FLAW: Identify ONE major flaw or \"NONE\" if perfect.\n" ++
  "IMPROVED SOLUTION: Rewrite addressing the flaw.\n\n" ++
  "Respond ONLY with valid JSON:\n\x7b\n  \"score\": X.X,\n  \"flaw\": \"specific flaw or NONE\",\n  \"improved\": \"complete improved solution\"\n\x7d"

/-- One iteration of the consolidation loop in _peer_review: the zipped
(candidate, gathered outcome) pair yields a review unless the gateway
call failed, the parse raised, or the score bounds check failed.
`parse` stands for _parse_review_response, which the loop guards with
an exception handler. -/
def reviewOfPair (review_model : String) (parse : String → Except String ReviewData)
    (p : Candidate × Except String String) : Option Review :=
  match p.2 with
  | Except.error _ => none
  | Except.ok text =>
    match parse text with
    | Except.error _ => none
    | Except.ok rd =>
      if validate_review_scores rd then
        some ⟨rd.score, rd.flaw, rd.improved, p.1.text, p.1.model, review_model⟩
      else none

/-- The consolidation loop of _peer_review over the zipped pairs. -/
def review_loop (review_model : String) (parse : String → Except String ReviewData)
    (pairs : List (Candidate × Except String String)) : List Review :=
  pairs.filterMap (reviewOfPair review_model parse)

/-- _peer_review: review tasks are created only for candidates with
non-blank text (the gateway outcome for a prompt is given by the oracle
`gateway`), and the gathered results are then zipped against the full
candidate list. -/
def peer_review (task review_model : String) (candidates : List Candidate)
    (gateway : String → Except String String)
    (parse : String → Except String ReviewData) : List Review :=
  let review_results :=
    (candidates.filter fun c => !isBlank c.text).map
      fun c => gateway (build_review_prompt task c.text)
  review_loop review_model parse (candidates.zip review_results)

/-! ## _call_openrouter retry loop -/

/-- The observable outcome of one HTTP attempt. -/
inductive Attempt where
  | status429 : Attempt
  | httpError : Nat → String → Attempt
  | timedOut : Attempt
  | ok200 : List String → Option String → Attempt
deriving DecidableEq

/-- The outcome of _call_openrouter. -/
inductive CallResult where
  | success : Candidate → CallResult
  | failure : String → CallResult
  | sentinel : String → CallResult
deriving DecidableEq

/-- The attempt loop of _call_openrouter, consuming one oracle entry per
attempt (the list has length max_retries).  A 429 always continues; a
non-200 status and a timeout continue except on the final attempt, where
they raise; a 200 response with no choices raises
ValueError("Invalid model response format"), which the enclosing
`except Exception` handler catches and retries except on the final
attempt; a 200 response with a choice returns the stripped text.
Exhausting the loop returns the sentinel empty-text record. -/
def call_openrouter_loop (model : String) : List Attempt → CallResult
  | [] => CallResult.sentinel model
  | a :: rest =>
    match a with
    | Attempt.status429 => call_openrouter_loop model rest
    | Attempt.httpError code body =>
      if rest = [] then CallResult.failure ("HTTP " ++ toString code ++ ": " ++ body)
      else call_openrouter_loop model rest
    | Attempt.timedOut =>
      if rest = [] then CallResult.failure "timeout" else call_openrouter_loop model rest
    | Attempt.ok200 choices rid =>
      match choices with
      | [] =>
        if rest = [] then CallResult.failure "Invalid model response format"
        else call_openrouter_loop model rest
      | t :: _ => CallResult.success ⟨pyStrip t, model, rid.getD "unknown"⟩

/-! ## _generate_candidates -/

/-- _get_active_models: models whose circuit state (default "closed")
is "closed". -/
def get_active_models (models : List String) (circuit_state : String → String) :
    List String :=
  models.filter fun m => circuit_state m = "closed"

/-- The num_candidates field set in __init__: min(num_candidates, len(models)). -/
def agent_num_candidates (num_candidates : Nat) (models : List String) : Nat :=
  min num_candidates models.length

/-- _generate_candidates: raise when no model has a closed circuit;
otherwise invoke the gateway on a random permutation (supplied as the
oracle `perm`) truncated to num_candidates, drop failed invocations and
blank-text results. -/
def generate_candidates (num_candidates : Nat) (models : List String)
    (circuit_state : String → String) (perm : List String)
    (gw : String → Except String Candidate) : Except String (List Candidate) :=
  if get_active_models models circuit_state = [] then Except.error "No available models"
  else
    Except.ok (((perm.take num_candidates).map gw).filterMap fun r =>
      match r with
      | Except.error _ => none
      | Except.ok g => if isBlank g.text then none else some g)

/-! ## Winner selection (reviews.sort(key=score, reverse=True)) -/

/-- Insert into a descending-sorted list, placing the new element before
the first entry whose score is not strictly greater: this is the unique
stable descending order, matching Python list.sort(reverse=True). -/
def insertDesc (x : Review) : List Review → List Review
  | [] => [x]
  | y :: ys => if x.scoreD < y.scoreD then y :: insertDesc x ys else x :: y :: ys

/-- Stable descending sort by score: observationally equal to Python
list.sort(key=lambda x: x.get("score", 0), reverse=True). -/
def sortDesc (l : List Review) : List Review :=
  l.foldr insertDesc []

/-- The earliest review attaining the maximal score. -/
def firstMaxReview : List Review → Option Review
  | [] => none
  | x :: xs =>
    match firstMaxReview xs with
    | none => some x
    | some y => if x.scoreD < y.scoreD then some y else some x

/-- Python max(candidates, key=lambda x: len(x.get("text", ""))): the
earliest candidate attaining the maximal text length. -/
def firstLongest : List Candidate → Option Candidate
  | [] => none
  | x :: xs =>
    match firstLongest xs with
    | none => some x
    | some y => if x.text.length < y.text.length then some y else some x

/-! ## solve -/

structure SolveResult where
  solution : String
  score : ℚ
  model : String
  processing_time : ℚ
  confidence : String
  flaw_corrected : Option String
  error : Option String
  info : Option String
deriving DecidableEq

/-- The structured record built by the outer exception handler of solve. -/
def errorResult (msg : String) (elapsed : ℚ) : SolveResult :=
  ⟨"An error occurred: " ++ msg, 0, "error", elapsed, "none", none, some msg, none⟩

/-- The placeholder key checked at the top of solve. -/
def placeholderKey : String := "your-openrouter-api-key-here"

/-- solve: the end-to-end orchestration.  The candidate-generation and
peer-review stages are supplied as oracles (`gen`, `rev`), each either
the stage result or the uncaught exception it raised; `elapsed` is the
wall-clock duration oracle.  The returned pair is (result record,
updated quality_milestones). -/
def solve (cfg : ModelConfig) (threshold : ℚ) (milestones : List ℚ)
    (gen : Except String (List Candidate)) (rev : Except String (List Review))
    (elapsed : ℚ) : SolveResult × List ℚ :=
  if cfg.api_key = "" ∨ cfg.api_key = placeholderKey then
    (⟨"Emergent Universal Key is ready! The AI agent is configured and working.",
      0, "system", 0, "ready", none, none,
      some "Using Emergent Universal Key for testing (GPT-4o, Claude 3.5 Sonnet, Gemini 2.0)"⟩,
     milestones)
  else
    match gen with
    | Except.error e => (errorResult e elapsed, milestones)
    | Except.ok [] =>
      (⟨"I apologize, but I\x27m unable to generate a response at the moment. Please try again.",
        0, "fallback", elapsed, "none", none, none, none⟩, milestones)
    | Except.ok (c :: cs) =>
      match rev with
      | Except.error e => (errorResult e elapsed, milestones)
      | Except.ok [] =>
        let best := (firstLongest (c :: cs)).getD c
        (⟨best.text, 5, best.model, elapsed, "low", none, none, none⟩, milestones)
      | Except.ok (r :: rs) =>
        let winner := (sortDesc (r :: rs)).headI
        let current_score := winner.scoreD
        let milestones2 :=
          if should_trigger_improvement threshold milestones current_score then
            milestones ++ [current_score]
          else milestones
        (⟨winner.improved.getD winner.original, current_score, winner.model, elapsed,
          (if current_score > 7 then "high" else "medium"),
          some (winner.flaw.getD "NONE"), none, none⟩, milestones2)

/-! ## Theorems -/

/-- C10: the placeholder-key guard at the top of solve. -/
theorem solve_ready_guard (cfg : ModelConfig) (threshold : ℚ) (milestones : List ℚ)
    (gen gen2 : Except String (List Candidate)) (rev rev2 : Except String (List Review))
    (el el2 : ℚ) (h : cfg.api_key = "" ∨ cfg.api_key = placeholderKey) :
    solve cfg threshold milestones gen rev el = solve cfg threshold milestones gen2 rev2 el2
    ∧ (solve cfg threshold milestones gen rev el).2 = milestones
    ∧ (solve cfg threshold milestones gen rev el).1.confidence = "ready"
    ∧ (solve cfg threshold milestones gen rev el).1.score = 0
    ∧ (solve cfg threshold milestones gen rev el).1.model = "system"
    ∧ (solve cfg threshold milestones gen rev el).1.processing_time = 0 := by
  simp [solve, h]

/-- C10 witness. -/
theorem solve_ready_guard_witness :
    (solve ⟨"", "u", [], "r", 30, 3⟩ 0 [] (Except.ok []) (Except.ok []) 1).1.confidence
      = "ready"
    ∧ (solve ⟨"", "u", [], "r", 30, 3⟩ 0 [] (Except.ok []) (Except.ok []) 1).2 = [] := by
  have h := solve_ready_guard ⟨"", "u", [], "r", 30, 3⟩ 0 [] (Except.ok [])
    (Except.error "x") (Except.ok []) (Except.error "y") 1 2 (Or.inl rfl)
  exact ⟨h.2.2.1, h.2.1⟩

/-- C1: solve converts an uncaught stage failure into a structured error
record (score 0, model tag "error", the failure message in the error
field) instead of propagating it; in this embedding solve is a total
function, so a populated record is returned on every path. -/
theorem solve_error_contract (cfg : ModelConfig) (threshold : ℚ) (milestones : List ℚ)
    (el : ℚ) (e : String) (h1 : cfg.api_key ≠ "") (h2 : cfg.api_key ≠ placeholderKey) :
    (∀ rev, (solve cfg threshold milestones (Except.error e) rev el).1
        = ⟨"An error occurred: " ++ e, 0, "error", el, "none", none, some e, none⟩
      ∧ (solve cfg threshold milestones (Except.error e) rev el).2 = milestones)
    ∧ (∀ c cs, (solve cfg threshold milestones (Except.ok (c :: cs)) (Except.error e) el).1
        = ⟨"An error occurred: " ++ e, 0, "error", el, "none", none, some e, none⟩
      ∧ (solve cfg threshold milestones (Except.ok (c :: cs)) (Except.error e) el).2
        = milestones) := by
  constructor
  · intro rev
    simp [solve, h1, h2, errorResult]
  · intro c cs
    simp [solve, h1, h2, errorResult]

/-- C1 witness. -/
theorem solve_error_contract_witness :
    (solve ⟨"k", "u", [], "r", 30, 3⟩ 0 [] (Except.error "boom") (Except.ok []) 2).1.model
      = "error"
    ∧ (solve ⟨"k", "u", [], "r", 30, 3⟩ 0 [] (Except.error "boom") (Except.ok []) 2).1.error
      = some "boom" := by
  have h := (solve_error_contract ⟨"k", "u", [], "r", 30, 3⟩ 0 [] 2 "boom"
    (by simp) (by simp [placeholderKey])).1 (Except.ok [])
  rw [h.1]
  exact ⟨rfl, rfl⟩

/-- C3: a pair of the consolidation loop whose gateway call failed, whose
response fails to parse, or whose parsed score fails the bounds check
0 ≤ score ≤ 10 contributes no review, and the reviews of the remaining
pairs of the batch are produced unchanged (peer_review is review_loop
over the zipped pairs). -/
theorem review_loop_drops_bad_pair (rm : String) (parse : String → Except String ReviewData)
    (pairs1 pairs2 : List (Candidate × Except String String))
    (p : Candidate × Except String String)
    (hbad : (∃ e, p.2 = Except.error e)
      ∨ (∃ t, p.2 = Except.ok t ∧ ((∃ e, parse t = Except.error e)
        ∨ (∃ rd, parse t = Except.ok rd ∧ ¬ (0 ≤ rd.scoreD ∧ rd.scoreD ≤ 10))))) :
    review_loop rm parse (pairs1 ++ p :: pairs2) = review_loop rm parse (pairs1 ++ pairs2) := by
  have hnone : reviewOfPair rm parse p = none := by
    obtain ⟨e, he⟩ | ⟨t, ht, hrest⟩ := hbad
    · simp [reviewOfPair, he]
    · obtain ⟨e, hp⟩ | ⟨rd, hp, hv⟩ := hrest
      · simp [reviewOfPair, ht, hp]
      · simp [reviewOfPair, ht, hp, validate_review_scores, hv]
  simp [review_loop, List.filterMap_append, List.filterMap_cons, hnone]

/-- C3 witness: a review scoring 11 is dropped while its neighbours survive. -/
theorem review_loop_drops_bad_pair_witness :
    review_loop "r" (fun s => Except.ok ⟨some (if s = "bad" then 11 else 5), none, none⟩)
      [(⟨"a", "m1", "i1"⟩, Except.ok "good"), (⟨"b", "m2", "i2"⟩, Except.ok "bad"),
       (⟨"c", "m3", "i3"⟩, Except.ok "good")]
    = review_loop "r" (fun s => Except.ok ⟨some (if s = "bad" then 11 else 5), none, none⟩)
      [(⟨"a", "m1", "i1"⟩, Except.ok "good"), (⟨"c", "m3", "i3"⟩, Except.ok "good")] := by
  have h := review_loop_drops_bad_pair "r"
    (fun s => Except.ok ⟨some (if s = "bad" then 11 else 5), none, none⟩)
    [(⟨"a", "m1", "i1"⟩, Except.ok "good")]
    [(⟨"c", "m3", "i3"⟩, Except.ok "good")]
    (⟨"b", "m2", "i2"⟩, Except.ok "bad")
    (Or.inr ⟨"bad", rfl, Or.inr ⟨⟨some 11, none, none⟩, by simp, by
      simp [ReviewData.scoreD]
      norm_num⟩⟩)
  simpa using h

/-- C2 counterexample: an HTTP 200 response with no choices on a
non-final attempt does NOT end the call with a format error; the raised
ValueError is caught by the generic retry handler and a further attempt
runs (here succeeding).  The claim asserts the result would be the
immediate failure CallResult.failure "Invalid model response format". -/
theorem call_format_error_retried_counterexample :
    call_openrouter_loop "m" [Attempt.ok200 [] none, Attempt.ok200 ["hi"] none]
      = CallResult.success ⟨"hi", "m", "unknown"⟩
    ∧ CallResult.success ⟨"hi", "m", "unknown"⟩
      ≠ CallResult.failure "Invalid model response format" := by
  constructor
  · simp [call_openrouter_loop, pyStrip, isPySpace]
    decide
  · simp

/-- C2 amended: the missing-choices ValueError is caught by the blanket
exception handler of the retry loop, so on a non-final attempt the call
simply moves on to the next attempt, and the format error propagates
only when every attempt (in particular the final one) yields a
choices-free 200 response. -/
theorem call_format_error_retried (model : String) :
    (∀ attempts, attempts ≠ [] → (∀ a ∈ attempts, ∃ rid, a = Attempt.ok200 [] rid) →
      call_openrouter_loop model attempts = CallResult.failure "Invalid model response format")
    ∧ (∀ rid rest, rest ≠ [] →
      call_openrouter_loop model (Attempt.ok200 [] rid :: rest)
        = call_openrouter_loop model rest) := by
  constructor
  · intro attempts
    induction attempts with
    | nil => simp
    | cons a rest ih =>
      intro _ hall
      obtain ⟨rid, ha⟩ := hall a (by simp)
      subst ha
      by_cases hr : rest = []
      · subst hr
        simp [call_openrouter_loop]
      · have := ih hr (fun x hx => hall x (by simp [hx]))
        simpa [call_openrouter_loop, hr] using this
  · intro rid rest h
    simp [call_openrouter_loop, h]

/-- C2 amended witness. -/
theorem call_format_error_retried_witness :
    call_openrouter_loop "m" [Attempt.ok200 [] none, Attempt.ok200 [] (some "x")]
      = CallResult.failure "Invalid model response format" := by
  refine (call_format_error_retried "m").1
    [Attempt.ok200 [] none, Attempt.ok200 [] (some "x")] (by simp) ?_
  intro a ha
  simp at ha
  obtain h | h := ha
  · exact ⟨none, h⟩
  · exact ⟨some "x", h⟩

/-- C5: _generate_candidates raises exactly when no backend has a closed
circuit; otherwise it returns at most min(num_candidates, number of
configured backends) candidates (num_candidates being clamped in
__init__), never a blank-text one, and all invocations failing yields
the empty list as a non-error outcome. -/
theorem generate_candidates_spec (nc : Nat) (models : List String)
    (circuit : String → String) (perm : List String)
    (gw : String → Except String Candidate) :
    (generate_candidates (agent_num_candidates nc models) models circuit perm gw
        = Except.error "No available models"
      ↔ get_active_models models circuit = [])
    ∧ (get_active_models models circuit ≠ [] →
      ∃ l, generate_candidates (agent_num_candidates nc models) models circuit perm gw
          = Except.ok l
        ∧ l.length ≤ min nc models.length
        ∧ ∀ cand ∈ l, isBlank cand.text = false)
    ∧ (get_active_models models circuit ≠ [] →
      generate_candidates (agent_num_candidates nc models) models circuit perm
          (fun _ => Except.error "boom") = Except.ok []) := by
  refine ⟨?_, ?_, ?_⟩
  · constructor
    · intro h
      by_contra hne
      simp [generate_candidates, hne] at h
    · intro h
      simp [generate_candidates, h]
  · intro hne
    refine ⟨_, by rw [generate_candidates, if_neg hne], ?_, ?_⟩
    · calc _ ≤ ((perm.take (agent_num_candidates nc models)).map gw).length :=
            List.length_filterMap_le _ _
        _ = (perm.take (agent_num_candidates nc models)).length := List.length_map _ _
        _ ≤ agent_num_candidates nc models := List.length_take_le _ _
        _ = min nc models.length := rfl
    · intro cand hcand
      obtain ⟨r, _, hr⟩ := List.mem_filterMap.1 hcand
      match r with
      | Except.error e => simp at hr
      | Except.ok g =>
        by_cases hb : isBlank g.text
        · simp [hb] at hr
        · simp [hb] at hr
          rw [← hr]
          simpa using hb
  · intro hne
    simp [generate_candidates, hne, List.filterMap_map, Function.comp]

/-- C5 witness. -/
theorem generate_candidates_spec_witness :
    generate_candidates (agent_num_candidates 3 ["a", "b"]) ["a", "b"]
        (fun _ => "closed") ["b", "a"] (fun _ => Except.error "boom")
      = Except.ok [] := by
  refine (generate_candidates_spec 3 ["a", "b"] (fun _ => "closed") ["b", "a"]
    (fun _ => Except.error "boom")).2.2 ?_
  simp [get_active_models]

/-- The pruning predicate of _check_rate_limit keeps exactly the entries
strictly newer than now minus the window. -/
theorem filter_window_eq (W : ℚ) (ts : List ℚ) (now : ℚ) :
    (ts.filter fun t => decide (now - t < W)) = ts.filter fun t => decide (now - W < t) := by
  apply List.filter_congr
  intro a _
  simp only [decide_eq_decide]
  constructor <;> intro h <;> linarith

/-- Iterated _check_rate_limit calls whose times all lie within one
window of each other: every pruning keeps the whole window, so the i-th
call succeeds exactly while the window holds fewer than
rate_limit_requests entries. -/
theorem runCalls_window (cfg : SecurityConfig) :
    ∀ (rest prev : List ℚ),
      (∀ a ∈ prev ++ rest, ∀ b ∈ prev ++ rest, a - b < (cfg.rate_limit_window : ℚ)) →
      runCalls cfg prev rest
        = (List.range rest.length).map fun i =>
            decide (prev.length + i < cfg.rate_limit_requests) := by
  intro rest
  induction rest with
  | nil =>
    intro prev _
    simp [runCalls]
  | cons now rest2 ih =>
    intro prev h
    have hmem : ∀ x ∈ prev ++ rest2, x ∈ prev ++ now :: rest2 := by
      intro x hx
      rcases List.mem_append.1 hx with hx | hx
      · exact List.mem_append_left _ hx
      · exact List.mem_append_right _ (List.mem_cons_of_mem _ hx)
    have hkeep : (prev.filter fun ts => decide (now - ts < (cfg.rate_limit_window : ℚ)))
        = prev := by
      apply List.filter_eq_self.2
      intro a ha
      simp only [decide_eq_true_eq]
      exact h now (List.mem_append_right _ (by simp)) a (List.mem_append_left _ ha)
    by_cases hR : cfg.rate_limit_requests ≤ prev.length
    · have hc : check_rate_limit cfg prev now = (prev, Except.error "Rate limit exceeded") := by
        simp only [check_rate_limit, hkeep]
        rw [if_pos hR]
      have h2 : ∀ a ∈ prev ++ rest2, ∀ b ∈ prev ++ rest2,
          a - b < (cfg.rate_limit_window : ℚ) :=
        fun a ha b hb => h a (hmem a ha) b (hmem b hb)
      simp only [runCalls, hc]
      rw [ih prev h2, List.length_cons, List.range_succ_eq_map, List.map_cons, List.map_map]
      congr 1
      · rw [decide_eq_false (by omega)]
      · apply List.map_congr_left
        intro a _
        simp only [Function.comp]
        rw [decide_eq_false (by omega), decide_eq_false (by omega)]
    · have hc : check_rate_limit cfg prev now = (prev ++ [now], Except.ok ()) := by
        simp only [check_rate_limit, hkeep]
        rw [if_neg hR]
      have hassoc : (prev ++ [now]) ++ rest2 = prev ++ now :: rest2 := by simp
      have h2 : ∀ a ∈ (prev ++ [now]) ++ rest2, ∀ b ∈ (prev ++ [now]) ++ rest2,
          a - b < (cfg.rate_limit_window : ℚ) := by
        rw [hassoc]
        exact h
      simp only [runCalls, hc]
      rw [ih (prev ++ [now]) h2, List.length_cons, List.range_succ_eq_map, List.map_cons,
        List.map_map]
      congr 1
      · rw [decide_eq_true (by omega)]
      · apply List.map_congr_left
        intro a _
        simp only [Function.comp, List.length_append, List.length_singleton]
        exact decide_eq_decide.2 (by omega)

theorem range_map_decide_lt_of_le : ∀ n m : ℕ, n ≤ m →
    (List.range n).map (fun i => decide (i < m)) = List.replicate n true := by
  intro n
  induction n with
  | zero => intro m _; simp
  | succ n ih =>
    intro m h
    rw [List.range_succ, List.map_append, ih m (Nat.le_of_succ_le h), List.replicate_succ']
    simp only [List.map_cons, List.map_nil]
    rw [decide_eq_true (by omega)]

theorem range_map_decide_lt_succ (R : ℕ) :
    (List.range (R + 1)).map (fun i => decide (i < R)) = List.replicate R true ++ [false] := by
  rw [List.range_succ, List.map_append, range_map_decide_lt_of_le R R le_rfl]
  simp only [List.map_cons, List.map_nil]
  rw [decide_eq_false (by omega)]

/-- C8: _check_rate_limit prunes the window to entries strictly newer
than now minus rate_limit_window, fails iff the pruned count reaches
rate_limit_requests, and otherwise appends now; consequently
rate_limit_requests + 1 calls within one window fail exactly on the
final call, and a call spaced at least a window past every recorded
entry succeeds again. -/
theorem check_rate_limit_spec (cfg : SecurityConfig) :
    (∀ ts now,
      check_rate_limit cfg ts now =
        (if cfg.rate_limit_requests
            ≤ ((ts.filter fun t => decide (now - (cfg.rate_limit_window : ℚ) < t)).length)
         then (ts.filter fun t => decide (now - (cfg.rate_limit_window : ℚ) < t),
               Except.error "Rate limit exceeded")
         else ((ts.filter fun t => decide (now - (cfg.rate_limit_window : ℚ) < t)) ++ [now],
               Except.ok ())))
    ∧ (∀ times, (∀ a ∈ times, ∀ b ∈ times, a - b < (cfg.rate_limit_window : ℚ)) →
        times.length = cfg.rate_limit_requests + 1 →
        runCalls cfg [] times = List.replicate cfg.rate_limit_requests true ++ [false])
    ∧ (∀ ts now, (∀ t ∈ ts, (cfg.rate_limit_window : ℚ) ≤ now - t) →
        0 < cfg.rate_limit_requests →
        check_rate_limit cfg ts now = ([now], Except.ok ())) := by
  refine ⟨?_, ?_, ?_⟩
  · intro ts now
    simp only [check_rate_limit]
    rw [filter_window_eq]
  · intro times hwin hlen
    rw [runCalls_window cfg times [] (by simpa using hwin)]
    simp only [List.length_nil, Nat.zero_add, hlen]
    exact range_map_decide_lt_succ cfg.rate_limit_requests
  · intro ts now hold hpos
    have hnil : (ts.filter fun t => decide (now - t < (cfg.rate_limit_window : ℚ))) = [] := by
      apply List.filter_eq_nil_iff.2
      intro a ha
      simp only [decide_eq_true_eq, not_lt]
      exact hold a ha
    simp only [check_rate_limit, hnil]
    rw [if_neg (by simpa using Nat.not_le.2 hpos)]
    simp

/-- C8 witness: quota 2, window 60; calls at 0, 1, 2 fail on the third,
and a call at 100 against the stale window [0, 1] succeeds. -/
theorem check_rate_limit_spec_witness :
    runCalls ⟨4096, 4096, 2, 60⟩ [] [0, 1, 2] = [true, true, false]
    ∧ check_rate_limit ⟨4096, 4096, 2, 60⟩ [0, 1] 100 = ([100], Except.ok ()) := by
  constructor
  · have h := (check_rate_limit_spec ⟨4096, 4096, 2, 60⟩).2.1 [0, 1, 2]
      (by
        intro a ha b hb
        fin_cases ha <;> fin_cases hb <;> norm_num)
      (by simp)
    simpa using h
  · exact (check_rate_limit_spec ⟨4096, 4096, 2, 60⟩).2.2 [0, 1] 100
      (by
        intro t ht
        fin_cases ht <;> norm_num)
      (by norm_num)

/-- Every element of x :: xs is bounded by Python max() over it. -/
theorem foldl_max_le : ∀ (xs : List ℚ) (x : ℚ), ∀ a ∈ x :: xs, a ≤ xs.foldl max x := by
  intro xs
  induction xs with
  | nil =>
    intro x a ha
    simp at ha
    simp [ha, List.foldl]
  | cons y ys ih =>
    intro x a ha
    show a ≤ List.foldl max (max x y) ys
    rcases List.mem_cons.1 ha with ha | ha
    · exact le_trans (ha ▸ le_max_left x y) (ih (max x y) (max x y) (by simp))
    · rcases List.mem_cons.1 ha with ha | ha
      · exact le_trans (ha ▸ le_max_right x y) (ih (max x y) (max x y) (by simp))
      · exact ih (max x y) a (List.mem_cons_of_mem _ ha)

/-- Python max() over x :: xs is an element of it. -/
theorem foldl_max_mem : ∀ (xs : List ℚ) (x : ℚ), xs.foldl max x ∈ x :: xs := by
  intro xs
  induction xs with
  | nil => intro x; simp [List.foldl]
  | cons y ys ih =>
    intro x
    show List.foldl max (max x y) ys ∈ x :: y :: ys
    rcases List.mem_cons.1 (ih (max x y)) with h | h
    · rcases max_choice x y with hm | hm
      · rw [h, hm]; simp
      · rw [h, hm]; simp
    · simp [List.mem_cons_of_mem, h]

/-- C7: _should_trigger_improvement is unconditionally true on an empty
milestone log; otherwise it compares (score - M) / (M + 1e-5) against
the threshold, M being the maximum of the last ten milestones, also
requiring score > 5; on history [6, 7] with threshold 0.15 a score of
8.5 triggers and 7.5 does not; and on the winning path of solve the
score is appended to the milestone log exactly when the trigger fires. -/
theorem should_trigger_improvement_spec (threshold s : ℚ) (ms : List ℚ) :
    should_trigger_improvement threshold [] s = true
    ∧ (ms ≠ [] → ∃ M, M ∈ ms.drop (ms.length - 10)
        ∧ (∀ a ∈ ms.drop (ms.length - 10), a ≤ M)
        ∧ should_trigger_improvement threshold ms s
          = decide ((s - M) / (M + 1 / 100000) > threshold ∧ s > 5))
    ∧ should_trigger_improvement (3 / 20) [6, 7] (17 / 2) = true
    ∧ should_trigger_improvement (3 / 20) [6, 7] (15 / 2) = false
    ∧ (∀ (cfg : ModelConfig) (el : ℚ) (c : Candidate) (cs : List Candidate)
        (r : Review) (rs : List Review),
        cfg.api_key ≠ "" → cfg.api_key ≠ placeholderKey →
        (solve cfg threshold ms (Except.ok (c :: cs)) (Except.ok (r :: rs)) el).2
          = (if should_trigger_improvement threshold ms ((sortDesc (r :: rs)).headI.scoreD)
             then ms ++ [(sortDesc (r :: rs)).headI.scoreD] else ms)) := by
  refine ⟨by simp [should_trigger_improvement], ?_, ?_, ?_, ?_⟩
  · intro h
    refine ⟨maxQ (ms.drop (ms.length - 10)), ?_, ?_, ?_⟩
    · have hne : ms.drop (ms.length - 10) ≠ [] := by
        rw [ne_eq, List.drop_eq_nil_iff]
        have : 0 < ms.length := List.length_pos.2 h
        omega
      cases hl : ms.drop (ms.length - 10) with
      | nil => exact absurd hl hne
      | cons y ys => exact foldl_max_mem ys y
    · intro a ha
      cases hl : ms.drop (ms.length - 10) with
      | nil =>
        rw [hl] at ha
        simp at ha
      | cons y ys =>
        rw [hl] at ha
        exact foldl_max_le ys y a ha
    · simp [should_trigger_improvement, h]
  · simp [should_trigger_improvement, maxQ]
    norm_num
  · simp [should_trigger_improvement, maxQ]
    norm_num
  · intro cfg el c cs r rs h1 h2
    simp [solve, h1, h2]

/-- C7 witness. -/
theorem should_trigger_improvement_spec_witness :
    (∃ M, M ∈ ([6, 7] : List ℚ).drop (([6, 7] : List ℚ).length - 10)
      ∧ (∀ a ∈ ([6, 7] : List ℚ).drop (([6, 7] : List ℚ).length - 10), a ≤ M)
      ∧ should_trigger_improvement (3 / 20) [6, 7] (17 / 2)
        = decide (((17 : ℚ) / 2 - M) / (M + 1 / 100000) > 3 / 20 ∧ (17 : ℚ) / 2 > 5))
    ∧ (solve ⟨"k", "u", [], "r", 30, 3⟩ (3 / 20) [6, 7]
        (Except.ok [⟨"x", "m", "i"⟩])
        (Except.ok [⟨some (17 / 2), none, none, "x", "m", "rev"⟩]) 1).2
      = (if should_trigger_improvement (3 / 20) [6, 7]
            ((sortDesc [⟨some (17 / 2), none, none, "x", "m", "rev"⟩]).headI.scoreD)
         then [6, 7] ++ [(sortDesc [⟨some (17 / 2), none, none, "x", "m", "rev"⟩]).headI.scoreD]
         else [6, 7]) := by
  constructor
  · exact (should_trigger_improvement_spec (3 / 20) (17 / 2) [6, 7]).2.1 (by simp)
  · exact (should_trigger_improvement_spec (3 / 20) (17 / 2) [6, 7]).2.2.2.2
      ⟨"k", "u", [], "r", 30, 3⟩ 1 ⟨"x", "m", "i"⟩ []
      ⟨some (17 / 2), none, none, "x", "m", "rev"⟩ []
      (by simp) (by simp [placeholderKey])

theorem insertDesc_ne_nil (x : Review) (l : List Review) : insertDesc x l ≠ [] := by
  cases l with
  | nil => simp [insertDesc]
  | cons y ys =>
    by_cases h : x.scoreD < y.scoreD <;> simp [insertDesc, h]

theorem sortDesc_eq_nil_iff (l : List Review) : sortDesc l = [] ↔ l = [] := by
  cases l with
  | nil => simp [sortDesc]
  | cons x xs =>
    constructor
    · intro h
      exact absurd h (insertDesc_ne_nil x (sortDesc xs))
    · simp

theorem head_insertDesc_cons (x y : Review) (ys : List Review) :
    (insertDesc x (y :: ys)).head? = some (if x.scoreD < y.scoreD then y else x) := by
  by_cases h : x.scoreD < y.scoreD <;> simp [insertDesc, h]

theorem firstMaxReview_cons_ne (y : Review) (ys : List Review) :
    firstMaxReview (y :: ys) ≠ none := by
  cases hm : firstMaxReview ys with
  | none => simp [firstMaxReview, hm]
  | some z =>
    by_cases h : y.scoreD < z.scoreD <;> simp [firstMaxReview, hm, h]

/-- The head of the stable descending sort is the earliest review
attaining the maximal score. -/
theorem sortDesc_head_eq_firstMax : ∀ l : List Review, (sortDesc l).head? = firstMaxReview l := by
  intro l
  induction l with
  | nil => rfl
  | cons x xs ih =>
    show (insertDesc x (sortDesc xs)).head? = firstMaxReview (x :: xs)
    cases hs : sortDesc xs with
    | nil =>
      have hxs : xs = [] := (sortDesc_eq_nil_iff xs).1 hs
      subst hxs
      simp [insertDesc, firstMaxReview]
    | cons y ys =>
      have hy : firstMaxReview xs = some y := by
        rw [← ih, hs]
        rfl
      rw [head_insertDesc_cons]
      by_cases h : x.scoreD < y.scoreD <;> simp [firstMaxReview, hy, h]

/-- firstMaxReview returns a member that bounds every score, and it is
the earliest such member: everything before it scores strictly less. -/
theorem firstMax_spec : ∀ (l : List Review) (w : Review), firstMaxReview l = some w →
    w ∈ l ∧ (∀ x ∈ l, x.scoreD ≤ w.scoreD)
    ∧ ∃ l1 l2, l = l1 ++ w :: l2 ∧ ∀ x ∈ l1, x.scoreD < w.scoreD := by
  intro l
  induction l with
  | nil => intro w h; simp [firstMaxReview] at h
  | cons x xs ih =>
    intro w h
    cases hm : firstMaxReview xs with
    | none =>
      have hxs : xs = [] := by
        cases xs with
        | nil => rfl
        | cons y ys => exact absurd hm (firstMaxReview_cons_ne y ys)
      subst hxs
      have hw : w = x := by
        simp [firstMaxReview] at h
        exact h.symm
      subst hw
      refine ⟨by simp, by simp, [], [], rfl, by simp⟩
    | some y =>
      obtain ⟨hmem, hle, l1, l2, hdec, hlt⟩ := ih y hm
      have hh : (if x.scoreD < y.scoreD then some y else some x) = some w := by
        simpa [firstMaxReview, hm] using h
      by_cases hxy : x.scoreD < y.scoreD
      · rw [if_pos hxy] at hh
        have hw : w = y := by
          injection hh with hh2
          exact hh2.symm
        subst hw
        refine ⟨List.mem_cons_of_mem _ hmem, ?_, x :: l1, l2, by simp [hdec], ?_⟩
        · intro z hz
          rcases List.mem_cons.1 hz with hz | hz
          · rw [hz]
            exact le_of_lt hxy
          · exact hle z hz
        · intro z hz
          rcases List.mem_cons.1 hz with hz | hz
          · rw [hz]
            exact hxy
          · exact hlt z hz
      · rw [if_neg hxy] at hh
        have hw : w = x := by
          injection hh with hh2
          exact hh2.symm
        subst hw
        refine ⟨by simp, ?_, [], xs, rfl, by simp⟩
        intro z hz
        rcases List.mem_cons.1 hz with hz | hz
        · rw [hz]
        · exact le_trans (hle z hz) (not_lt.1 hxy)

theorem insertDesc_perm (x : Review) (l : List Review) : List.Perm (insertDesc x l) (x :: l) := by
  induction l with
  | nil => exact List.Perm.refl _
  | cons y ys ih =>
    by_cases h : x.scoreD < y.scoreD
    · simp only [insertDesc, if_pos h]
      exact List.Perm.trans (List.Perm.cons y ih) (List.Perm.swap x y ys)
    · simp only [insertDesc, if_neg h]
      exact List.Perm.refl _

theorem sortDesc_perm (l : List Review) : List.Perm (sortDesc l) l := by
  induction l with
  | nil => exact List.Perm.refl _
  | cons x xs ih =>
    exact List.Perm.trans (insertDesc_perm x (sortDesc xs)) (List.Perm.cons x ih)

theorem pairwise_insertDesc (x : Review) (l : List Review)
    (h : l.Pairwise fun a b => b.scoreD ≤ a.scoreD) :
    (insertDesc x l).Pairwise fun a b => b.scoreD ≤ a.scoreD := by
  induction l with
  | nil => simp [insertDesc]
  | cons y ys ih =>
    obtain ⟨hy, hys⟩ := List.pairwise_cons.1 h
    by_cases hxy : x.scoreD < y.scoreD
    · simp only [insertDesc, if_pos hxy]
      apply List.pairwise_cons.2
      refine ⟨?_, ih hys⟩
      intro z hz
      rcases List.mem_cons.1 ((insertDesc_perm x ys).mem_iff.1 hz) with hz2 | hz2
      · rw [hz2]
        exact le_of_lt hxy
      · exact hy z hz2
    · simp only [insertDesc, if_neg hxy]
      apply List.pairwise_cons.2
      refine ⟨?_, h⟩
      intro z hz
      rcases List.mem_cons.1 hz with hz2 | hz2
      · rw [hz2]
        exact not_lt.1 hxy
      · exact le_trans (hy z hz2) (not_lt.1 hxy)

theorem sortDesc_pairwise (l : List Review) :
    (sortDesc l).Pairwise fun a b => b.scoreD ≤ a.scoreD := by
  induction l with
  | nil => simp [sortDesc]
  | cons x xs ih => exact pairwise_insertDesc x (sortDesc xs) ih

theorem sortDesc_headI_eq (r : Review) (rs : List Review) (w : Review)
    (h : firstMaxReview (r :: rs) = some w) : (sortDesc (r :: rs)).headI = w := by
  have hh : (sortDesc (r :: rs)).head? = some w := by
    rw [sortDesc_head_eq_firstMax]
    exact h
  cases hs : sortDesc (r :: rs) with
  | nil =>
    rw [hs] at hh
    simp at hh
  | cons a l2 =>
    rw [hs] at hh
    simp at hh
    simp [hh]

/-- Python max(candidates, key=len of text) returns a member whose text
length bounds that of every candidate. -/
theorem firstLongest_spec : ∀ (l : List Candidate) (b : Candidate), firstLongest l = some b →
    b ∈ l ∧ ∀ x ∈ l, x.text.length ≤ b.text.length := by
  intro l
  induction l with
  | nil => intro b h; simp [firstLongest] at h
  | cons x xs ih =>
    intro b h
    cases hm : firstLongest xs with
    | none =>
      have hxs : xs = [] := by
        cases xs with
        | nil => rfl
        | cons y ys =>
          cases hm2 : firstLongest ys with
          | none => simp [firstLongest, hm2] at hm
          | some z =>
            by_cases hl : y.text.length < z.text.length <;> simp [firstLongest, hm2, hl] at hm
      subst hxs
      have hb : b = x := by
        simp [firstLongest] at h
        exact h.symm
      subst hb
      exact ⟨by simp, by simp⟩
    | some y =>
      obtain ⟨hmem, hle⟩ := ih y hm
      have hh : (if x.text.length < y.text.length then some y else some x) = some b := by
        simpa [firstLongest, hm] using h
      by_cases hxy : x.text.length < y.text.length
      · rw [if_pos hxy] at hh
        have hb : b = y := by
          injection hh with hh2
          exact hh2.symm
        subst hb
        refine ⟨List.mem_cons_of_mem _ hmem, ?_⟩
        intro z hz
        rcases List.mem_cons.1 hz with hz | hz
        · rw [hz]
          exact le_of_lt hxy
        · exact hle z hz
      · rw [if_neg hxy] at hh
        have hb : b = x := by
          injection hh with hh2
          exact hh2.symm
        subst hb
        refine ⟨by simp, ?_⟩
        intro z hz
        rcases List.mem_cons.1 hz with hz | hz
        · rw [hz]
        · exact le_trans (hle z hz) (not_lt.1 hxy)

/-- C6: with a non-empty review list, the winner chosen by solve is the head of the
stable descending sort — the earliest review attaining the maximal
score (ties keep input order) — and confidence is "high" iff the
winning score strictly exceeds 7, else "medium"; zero candidates yield
confidence "none" and zero reviews yield the longest-text candidate
with confidence "low" and score 5. -/
theorem solve_selection_spec (cfg : ModelConfig) (threshold : ℚ) (ms : List ℚ) (el : ℚ)
    (h1 : cfg.api_key ≠ "") (h2 : cfg.api_key ≠ placeholderKey) :
    (∀ (c : Candidate) (cs : List Candidate) (r : Review) (rs : List Review) (w : Review),
      firstMaxReview (r :: rs) = some w →
      (solve cfg threshold ms (Except.ok (c :: cs)) (Except.ok (r :: rs)) el).1
        = ⟨w.improved.getD w.original, w.scoreD, w.model, el,
            (if w.scoreD > 7 then "high" else "medium"), some (w.flaw.getD "NONE"),
            none, none⟩
      ∧ w ∈ r :: rs
      ∧ (∀ x ∈ r :: rs, x.scoreD ≤ w.scoreD)
      ∧ (∃ l1 l2, r :: rs = l1 ++ w :: l2 ∧ ∀ x ∈ l1, x.scoreD < w.scoreD)
      ∧ (sortDesc (r :: rs)).Perm (r :: rs)
      ∧ (sortDesc (r :: rs)).Pairwise (fun a b => b.scoreD ≤ a.scoreD))
    ∧ (∀ rev, (solve cfg threshold ms (Except.ok []) rev el).1.confidence = "none"
        ∧ (solve cfg threshold ms (Except.ok []) rev el).1.score = 0)
    ∧ (∀ (c : Candidate) (cs : List Candidate) (b : Candidate),
        firstLongest (c :: cs) = some b →
        (solve cfg threshold ms (Except.ok (c :: cs)) (Except.ok []) el).1
          = ⟨b.text, 5, b.model, el, "low", none, none, none⟩
        ∧ b ∈ c :: cs ∧ ∀ x ∈ c :: cs, x.text.length ≤ b.text.length) := by
  refine ⟨?_, ?_, ?_⟩
  · intro c cs r rs w hw
    have hhead := sortDesc_headI_eq r rs w hw
    obtain ⟨hmem, hle, hdec⟩ := firstMax_spec (r :: rs) w hw
    refine ⟨?_, hmem, hle, hdec, sortDesc_perm _, sortDesc_pairwise _⟩
    simp only [solve, h1, h2]
    rw [if_neg (by simp [h1, h2])]
    simp only [hhead]
  · intro rev
    constructor <;> simp [solve, h1, h2]
  · intro c cs b hb
    have hbest : (firstLongest (c :: cs)).getD c = b := by
      rw [hb]
      rfl
    obtain ⟨hmem, hle⟩ := firstLongest_spec (c :: cs) b hb
    refine ⟨?_, hmem, hle⟩
    simp only [solve, h1, h2]
    rw [if_neg (by simp [h1, h2])]
    simp only [hbest]

/-- C6 witness: the end-to-end scenario with reviewer scores 6, 9, 7.5;
the 9-scoring review wins with confidence "high". -/
theorem solve_selection_spec_witness :
    (solve ⟨"k", "u", [], "r", 30, 3⟩ 0 []
      (Except.ok [⟨"a", "m1", "i1"⟩])
      (Except.ok [⟨some 6, none, none, "a", "m1", "rev"⟩,
        ⟨some 9, none, some "imp", "b", "m2", "rev"⟩,
        ⟨some (15 / 2), none, none, "c", "m3", "rev"⟩]) 1).1.score = 9
    ∧ (solve ⟨"k", "u", [], "r", 30, 3⟩ 0 []
      (Except.ok [⟨"a", "m1", "i1"⟩])
      (Except.ok [⟨some 6, none, none, "a", "m1", "rev"⟩,
        ⟨some 9, none, some "imp", "b", "m2", "rev"⟩,
        ⟨some (15 / 2), none, none, "c", "m3", "rev"⟩]) 1).1.confidence = "high"
    ∧ (solve ⟨"k", "u", [], "r", 30, 3⟩ 0 []
      (Except.ok [⟨"a", "m1", "i1"⟩])
      (Except.ok [⟨some 6, none, none, "a", "m1", "rev"⟩,
        ⟨some 9, none, some "imp", "b", "m2", "rev"⟩,
        ⟨some (15 / 2), none, none, "c", "m3", "rev"⟩]) 1).1.model = "m2" := by
  have h := ((solve_selection_spec ⟨"k", "u", [], "r", 30, 3⟩ 0 [] 1 (by simp)
      (by simp [placeholderKey])).1
    ⟨"a", "m1", "i1"⟩ []
    ⟨some 6, none, none, "a", "m1", "rev"⟩
    [⟨some 9, none, some "imp", "b", "m2", "rev"⟩,
     ⟨some (15 / 2), none, none, "c", "m3", "rev"⟩]
    ⟨some 9, none, some "imp", "b", "m2", "rev"⟩
    (by norm_num [firstMaxReview, Review.scoreD])).1
  rw [h]
  refine ⟨by simp [Review.scoreD], by norm_num [Review.scoreD], rfl⟩

theorem zip_self_map {β : Type} (l : List Candidate) (f : Candidate → β) :
    l.zip (l.map f) = l.map fun a => (a, f a) := by
  induction l with
  | nil => rfl
  | cons x xs ih => simp [ih]

theorem reviewOfPair_refs (rm : String) (parse : String → Except String ReviewData)
    (c : Candidate) (x : Except String String) (r : Review)
    (h : reviewOfPair rm parse (c, x) = some r) :
    r.original = c.text ∧ r.model = c.model ∧ r.reviewer = rm := by
  cases x with
  | error e => simp [reviewOfPair] at h
  | ok t =>
    cases hp : parse t with
    | error e => simp [reviewOfPair, hp] at h
    | ok rd =>
      by_cases hv : validate_review_scores rd
      · simp [reviewOfPair, hp, hv] at h
        rw [← h]
        exact ⟨rfl, rfl, rfl⟩
      · simp [reviewOfPair, hp, hv] at h

/-- C4 counterexample: the gateway oracle echoes its prompt and the
parser records the response in the `improved` field, so each produced
review carries the very prompt it was generated from.  With an
empty-text candidate (skipped when review tasks are created) in front
of a non-empty one, zip(candidates, review_results) mispairs: the only
produced review was prompted with the text "hello" of candidate 1, yet its
back-references are the text "" and backend "m0" of candidate 0. -/
theorem peer_review_pairing_counterexample :
    peer_review "t" "rev" [⟨"", "m0", "i0"⟩, ⟨"hello", "m1", "i1"⟩]
      (fun p => Except.ok p) (fun s => Except.ok ⟨some 5, none, some s⟩)
      = [⟨some 5, none, some (build_review_prompt "t" "hello"), "", "m0", "rev"⟩]
    ∧ ("" : String) ≠ "hello" ∧ ("m0" : String) ≠ "m1" := by
  refine ⟨?_, by simp, by simp⟩
  simp [peer_review, review_loop, List.filterMap_cons, reviewOfPair, validate_review_scores,
    ReviewData.scoreD, isBlank, isPySpace]
  norm_num

/-- C4 amended: when every candidate passed to _peer_review has
non-blank text (as is guaranteed for lists produced by
_generate_candidates), no review task is skipped and the zip pairs each
gathered review with exactly the candidate whose text was embedded in
its prompt, so the back-references of every produced review are those of its
originating candidate. -/
theorem peer_review_pairing (task rm : String) (cands : List Candidate)
    (gw : String → Except String String) (parse : String → Except String ReviewData)
    (h : ∀ c ∈ cands, isBlank c.text = false) :
    peer_review task rm cands gw parse
      = cands.filterMap
          (fun c => reviewOfPair rm parse (c, gw (build_review_prompt task c.text)))
    ∧ ∀ r ∈ peer_review task rm cands gw parse, ∃ c ∈ cands,
        r.original = c.text ∧ r.model = c.model
        ∧ reviewOfPair rm parse (c, gw (build_review_prompt task c.text)) = some r := by
  have hfilter : (cands.filter fun c => !isBlank c.text) = cands := by
    apply List.filter_eq_self.2
    intro a ha
    simp [h a ha]
  have heq : peer_review task rm cands gw parse
      = cands.filterMap
          fun c => reviewOfPair rm parse (c, gw (build_review_prompt task c.text)) := by
    unfold peer_review review_loop
    rw [hfilter]
    show List.filterMap (reviewOfPair rm parse)
        (cands.zip (cands.map fun c => gw (build_review_prompt task c.text)))
      = List.filterMap
          (fun c => reviewOfPair rm parse (c, gw (build_review_prompt task c.text))) cands
    rw [zip_self_map cands fun c => gw (build_review_prompt task c.text),
      List.filterMap_map]
    rfl
  refine ⟨heq, ?_⟩
  intro r hr
  rw [heq] at hr
  obtain ⟨c, hc, hcr⟩ := List.mem_filterMap.1 hr
  obtain ⟨ho, hm2, _⟩ := reviewOfPair_refs rm parse c (gw (build_review_prompt task c.text)) r hcr
  exact ⟨c, hc, ho, hm2, hcr⟩

/-- C4 amended witness. -/
theorem peer_review_pairing_witness :
    peer_review "t" "rev" [⟨"a", "m1", "i1"⟩] (fun _ => Except.ok "resp")
      (fun _ => Except.ok ⟨some 5, none, none⟩)
      = [⟨"a", "m1", "i1"⟩].filterMap
          (fun c => reviewOfPair "rev" (fun _ => Except.ok ⟨some 5, none, none⟩)
            (c, (fun _ => Except.ok "resp") (build_review_prompt "t" c.text))) :=
  (peer_review_pairing "t" "rev" [⟨"a", "m1", "i1"⟩] (fun _ => Except.ok "resp")
    (fun _ => Except.ok ⟨some 5, none, none⟩)
    (by
      intro c hc
      simp at hc
      rw [hc]
      decide)).1

/-! ## Sanitize idempotence (C9) -/

theorem stripTags_nil : stripTags [] = [] := by
  rw [stripTags]

theorem stripTags_lt_some (cs tail : List Char) (hm : matchTag cs = some tail) :
    stripTags ('<' :: cs) = stripTags tail := by
  rw [stripTags]
  rw [if_pos rfl]
  split
  · next tail2 hm2 =>
    have h2 := hm2.symm.trans hm
    injection h2 with h3
    rw [h3]
  · next hm2 =>
    rw [hm2] at hm
    exact absurd hm (by simp)

theorem stripTags_lt_none (cs : List Char) (hm : matchTag cs = none) :
    stripTags ('<' :: cs) = '<' :: stripTags cs := by
  rw [stripTags]
  rw [if_pos rfl]
  split
  · next tail2 hm2 =>
    rw [hm2] at hm
    exact absurd hm (by simp)
  · rfl

theorem stripTags_cons (c : Char) (cs : List Char) (h : c ≠ '<') :
    stripTags (c :: cs) = c :: stripTags cs := by
  rw [stripTags]
  simp [h]

theorem collapseNl_nil : collapseNl [] = [] := by
  rw [collapseNl]

theorem collapseNl_nl (cs : List Char) :
    collapseNl ('\n' :: cs)
      = (if 10 ≤ countNl cs + 1 then List.replicate 5 '\n'
         else List.replicate (countNl cs + 1) '\n') ++ collapseNl (dropNl cs) := by
  rw [collapseNl]
  simp

theorem collapseNl_cons (c : Char) (cs : List Char) (h : c ≠ '\n') :
    collapseNl (c :: cs) = c :: collapseNl cs := by
  rw [collapseNl]
  simp [h]

theorem dropToGt_eq_none (l : List Char) : dropToGt l = none ↔ '>' ∉ l := by
  induction l with
  | nil => simp [dropToGt]
  | cons c cs ih =>
    by_cases hc : c = '>'
    · simp [dropToGt, hc]
    · simp [dropToGt, hc, ih, Ne.symm hc]

theorem dropToGt_suffix : ∀ l t : List Char, dropToGt l = some t → List.IsSuffix t l := by
  intro l
  induction l with
  | nil => intro t h; simp [dropToGt] at h
  | cons c cs ih =>
    intro t h
    by_cases hc : c = '>'
    · simp [dropToGt, hc] at h
      rw [← h]
      exact List.suffix_cons c cs
    · simp [dropToGt, hc] at h
      exact (ih t h).trans (List.suffix_cons c cs)

theorem matchTag_suffix (l t : List Char) (h : matchTag l = some t) : List.IsSuffix t l := by
  cases l with
  | nil => simp [matchTag] at h
  | cons d ds =>
    by_cases hd : d = '>'
    · simp [matchTag, hd] at h
    · simp [matchTag, hd] at h
      exact (dropToGt_suffix ds t h).trans (List.suffix_cons d ds)

theorem matchTag_none_iff (l : List Char) :
    matchTag l = none ↔ (∃ ds, l = '>' :: ds) ∨ '>' ∉ l := by
  cases l with
  | nil => simp [matchTag]
  | cons d ds =>
    by_cases hd : d = '>'
    · subst hd
      simp [matchTag]
    · simp [matchTag, hd, dropToGt_eq_none, Ne.symm hd]

theorem matchTag_none_of_not_mem (l : List Char) (h : '>' ∉ l) : matchTag l = none :=
  (matchTag_none_iff l).2 (Or.inr h)

theorem stripTags_sublist : ∀ l : List Char, List.Sublist (stripTags l) l
  | [] => by
    rw [stripTags_nil]
  | c :: cs => by
    by_cases h : c = '<'
    · subst h
      cases hm : matchTag cs with
      | some tail =>
        rw [stripTags_lt_some cs tail hm]
        exact ((stripTags_sublist tail).trans
          (matchTag_suffix cs tail hm).sublist).trans (List.sublist_cons_self _ _)
      | none =>
        rw [stripTags_lt_none cs hm]
        exact (stripTags_sublist cs).cons₂ _
    · rw [stripTags_cons c cs h]
      exact (stripTags_sublist cs).cons₂ _
termination_by l => l.length
decreasing_by
  all_goals first
    | exact Nat.lt_succ_of_lt (matchTag_length _ _ hm)
    | simp

theorem tagfree_mono {l m : List Char} (h : Tagfree l) (hm : List.IsSuffix m l) :
    Tagfree m :=
  fun cs hcs => h cs (hcs.trans hm)

/-- A tag-free list is a fixed point of stripTags. -/
theorem stripTags_of_tagfree : ∀ l : List Char, Tagfree l → stripTags l = l
  | [] => fun _ => stripTags_nil
  | c :: cs => fun h => by
    by_cases hc : c = '<'
    · subst hc
      have hm : matchTag cs = none := h cs List.suffix_rfl
      rw [stripTags_lt_none cs hm]
      rw [stripTags_of_tagfree cs (tagfree_mono h (List.suffix_cons _ _))]
    · rw [stripTags_cons c cs hc]
      rw [stripTags_of_tagfree cs (tagfree_mono h (List.suffix_cons _ _))]
termination_by l => l.length
decreasing_by
  · simp
  · simp

/-- The output of stripTags is tag-free. -/
theorem tagfree_stripTags : ∀ l : List Char, Tagfree (stripTags l)
  | [] => by
    rw [stripTags_nil]
    intro cs hcs
    simp at hcs
  | c :: cs => by
    by_cases h : c = '<'
    · subst h
      cases hm : matchTag cs with
      | some tail =>
        rw [stripTags_lt_some cs tail hm]
        exact tagfree_stripTags tail
      | none =>
        rw [stripTags_lt_none cs hm]
        intro es hes
        rcases List.suffix_cons_iff.1 hes with heq | hsuf
        · have hes2 : es = stripTags cs := by
            injection heq with h1 h2
          rw [hes2]
          rcases (matchTag_none_iff cs).1 hm with ⟨ds, hds⟩ | hnm
          · subst hds
            rw [stripTags_cons '>' ds (by decide)]
            simp [matchTag]
          · exact matchTag_none_of_not_mem _
              (fun hx => hnm ((stripTags_sublist cs).subset hx))
        · exact tagfree_stripTags cs es hsuf
    · rw [stripTags_cons c cs h]
      intro es hes
      rcases List.suffix_cons_iff.1 hes with heq | hsuf
      · exfalso
        apply h
        injection heq with h1 h2
        exact h1.symm
      · exact tagfree_stripTags cs es hsuf
termination_by l => l.length
decreasing_by
  all_goals first
    | exact Nat.lt_succ_of_lt (matchTag_length _ _ hm)
    | simp

theorem suffix_extend_take {cs l : List Char} {n : Nat} (h : List.IsSuffix cs (l.take n)) :
    List.IsSuffix (cs ++ l.drop n) l := by
  obtain ⟨b, hb⟩ := h
  refine ⟨b, ?_⟩
  rw [← List.append_assoc, hb, List.take_append_drop]

theorem matchTag_none_append (es t : List Char) (h : matchTag (es ++ t) = none) :
    matchTag es = none := by
  cases es with
  | nil => simp [matchTag]
  | cons d ds =>
    by_cases hd : d = '>'
    · simp [matchTag, hd]
    · simp only [List.cons_append] at h
      simp [matchTag, hd] at h ⊢
      rw [dropToGt_eq_none] at h ⊢
      intro hx
      exact h (List.mem_append_left _ hx)

theorem tagfree_take {l : List Char} (h : Tagfree l) (n : Nat) : Tagfree (l.take n) := by
  intro cs hcs
  have h2 : List.IsSuffix ('<' :: (cs ++ l.drop n)) l := by
    have := suffix_extend_take hcs
    simpa using this
  exact matchTag_none_append cs (l.drop n) (h (cs ++ l.drop n) h2)

theorem dropNl_suffix : ∀ l : List Char, List.IsSuffix (dropNl l) l := by
  intro l
  induction l with
  | nil => exact List.suffix_rfl
  | cons c cs ih =>
    by_cases hc : c = '\n'
    · rw [dropNl, if_pos hc]
      exact ih.trans (List.suffix_cons c cs)
    · rw [dropNl, if_neg hc]

theorem not_mem_collapseNl : ∀ l : List Char, '>' ∉ l → '>' ∉ collapseNl l
  | [] => by
    rw [collapseNl_nil]
    simp
  | c :: cs => fun h => by
    by_cases hc : c = '\n'
    · subst hc
      rw [collapseNl_nl cs]
      have hrep : ∃ k, (if 10 ≤ countNl cs + 1 then List.replicate 5 '\n'
          else List.replicate (countNl cs + 1) '\n') = List.replicate k '\n' := by
        split
        · exact ⟨5, rfl⟩
        · exact ⟨countNl cs + 1, rfl⟩
      obtain ⟨k, hk⟩ := hrep
      rw [hk]
      intro hmem
      rcases List.mem_append.1 hmem with hmem | hmem
      · have h2 := List.eq_of_mem_replicate hmem
        simp at h2
      · have hnot : '>' ∉ dropNl cs := fun hx =>
          h (List.mem_cons_of_mem _ ((dropNl_suffix cs).subset hx))
        exact not_mem_collapseNl (dropNl cs) hnot hmem
    · rw [collapseNl_cons c cs hc]
      intro hmem
      rcases List.mem_cons.1 hmem with hmem | hmem
      · exact h (List.mem_cons.2 (Or.inl hmem))
      · exact not_mem_collapseNl cs (fun hx => h (List.mem_cons_of_mem _ hx)) hmem
termination_by l => l.length
decreasing_by
  · exact Nat.lt_succ_of_le (dropNl_length cs)
  · simp

theorem suffix_replicate_append {t Y : List Char} {a : Char} :
    ∀ k : Nat, List.IsSuffix t (List.replicate k a ++ Y) →
      List.IsSuffix t Y ∨ ∃ j, j ≤ k ∧ 1 ≤ j ∧ t = List.replicate j a ++ Y := by
  intro k
  induction k with
  | zero =>
    intro h
    simp at h
    exact Or.inl h
  | succ k ih =>
    intro h
    rw [List.replicate_succ, List.cons_append] at h
    rcases List.suffix_cons_iff.1 h with heq | hsuf
    · right
      exact ⟨k + 1, le_rfl, by omega, by rw [heq, List.replicate_succ, List.cons_append]⟩
    · rcases ih hsuf with h2 | ⟨j, hj, hj1, ht⟩
      · exact Or.inl h2
      · exact Or.inr ⟨j, Nat.le_succ_of_le hj, hj1, ht⟩

/-- collapseNl preserves tag-freeness: it only deletes newlines inside
newline runs, which neither creates a '<' - '>' adjacency nor introduces
a '>' after a '<' that had none. -/
theorem tagfree_collapseNl : ∀ l : List Char, Tagfree l → Tagfree (collapseNl l)
  | [] => fun _ => by
    rw [collapseNl_nil]
    intro cs hcs
    simp at hcs
  | c :: cs => fun h => by
    by_cases hc : c = '\n'
    · subst hc
      rw [collapseNl_nl cs]
      intro es hes
      have hrep : ∃ k, (if 10 ≤ countNl cs + 1 then List.replicate 5 '\n'
          else List.replicate (countNl cs + 1) '\n') = List.replicate k '\n' := by
        split
        · exact ⟨5, rfl⟩
        · exact ⟨countNl cs + 1, rfl⟩
      obtain ⟨k, hk⟩ := hrep
      rw [hk] at hes
      rcases suffix_replicate_append k hes with hsuf | ⟨j, _, hj1, ht⟩
      · have htf : Tagfree (dropNl cs) :=
          tagfree_mono h ((dropNl_suffix cs).trans (List.suffix_cons _ _))
        exact tagfree_collapseNl (dropNl cs) htf es hsuf
      · exfalso
        cases j with
        | zero => omega
        | succ j =>
          rw [List.replicate_succ, List.cons_append] at ht
          injection ht with h1 h2
          simp at h1
    · rw [collapseNl_cons c cs hc]
      intro es hes
      rcases List.suffix_cons_iff.1 hes with heq | hsuf
      · have hc2 : c = '<' := by
          injection heq with h1 h2
          exact h1.symm
        subst hc2
        have hes2 : es = collapseNl cs := by
          injection heq with h1 h2
        rw [hes2]
        have hm : matchTag cs = none := h cs List.suffix_rfl
        rcases (matchTag_none_iff cs).1 hm with ⟨ds, hds⟩ | hnm
        · subst hds
          rw [collapseNl_cons '>' ds (by decide)]
          simp [matchTag]
        · exact matchTag_none_of_not_mem _ (not_mem_collapseNl cs hnm)
      · exact tagfree_collapseNl cs (tagfree_mono h (List.suffix_cons _ _)) es hsuf
termination_by l => l.length
decreasing_by
  · exact Nat.lt_succ_of_le (dropNl_length cs)
  · simp

theorem countNl_le_append : ∀ cs t : List Char, countNl cs ≤ countNl (cs ++ t) := by
  intro cs t
  induction cs with
  | nil => simp [countNl]
  | cons c cs ih =>
    by_cases hc : c = '\n'
    · simp only [List.cons_append, countNl, if_pos hc]
      exact Nat.succ_le_succ ih
    · simp only [List.cons_append, countNl, if_neg hc]
      exact Nat.zero_le _

theorem noLongRun_mono {l m : List Char} (h : NoLongRun l) (hm : List.IsSuffix m l) :
    NoLongRun m :=
  fun cs hcs => h cs (hcs.trans hm)

theorem noLongRun_take {l : List Char} (h : NoLongRun l) (n : Nat) : NoLongRun (l.take n) := by
  intro cs hcs
  exact le_trans (countNl_le_append cs (l.drop n)) (h _ (suffix_extend_take hcs))

theorem countNl_split : ∀ cs : List Char,
    cs = List.replicate (countNl cs) '\n' ++ dropNl cs := by
  intro cs
  induction cs with
  | nil => rfl
  | cons c cs ih =>
    by_cases hc : c = '\n'
    · subst hc
      rw [countNl, if_pos rfl, dropNl, if_pos rfl, List.replicate_succ, List.cons_append]
      exact congrArg _ ih
    · rw [countNl, if_neg hc, dropNl, if_neg hc]
      rfl

theorem dropNl_head_ne : ∀ (l : List Char) (d : Char) (ds : List Char),
    dropNl l = d :: ds → d ≠ '\n' := by
  intro l
  induction l with
  | nil => intro d ds h; simp [dropNl] at h
  | cons c cs ih =>
    intro d ds h
    by_cases hc : c = '\n'
    · rw [dropNl, if_pos hc] at h
      exact ih d ds h
    · rw [dropNl, if_neg hc] at h
      injection h with h1 h2
      exact h1 ▸ hc

theorem countNl_collapseNl_dropNl (cs : List Char) :
    countNl (collapseNl (dropNl cs)) = 0 := by
  cases hm : dropNl cs with
  | nil => rw [collapseNl_nil]; rfl
  | cons d ds =>
    have hd : d ≠ '\n' := dropNl_head_ne cs d ds hm
    rw [collapseNl_cons d ds hd, countNl, if_neg hd]

theorem countNl_replicate_append (Y : List Char) :
    ∀ j : Nat, countNl (List.replicate j '\n' ++ Y) = j + countNl Y := by
  intro j
  induction j with
  | zero => simp
  | succ j ih =>
    rw [List.replicate_succ, List.cons_append, countNl, if_pos rfl, ih]
    omega

/-- A list with no newline run of length ten is a fixed point of
collapseNl. -/
theorem collapseNl_of_noLongRun : ∀ l : List Char, NoLongRun l → collapseNl l = l
  | [] => fun _ => collapseNl_nil
  | c :: cs => fun h => by
    by_cases hc : c = '\n'
    · subst hc
      have hcount : countNl ('\n' :: cs) ≤ 9 := h _ List.suffix_rfl
      rw [countNl, if_pos rfl] at hcount
      rw [collapseNl_nl cs, if_neg (by omega)]
      rw [collapseNl_of_noLongRun (dropNl cs)
        (noLongRun_mono h ((dropNl_suffix cs).trans (List.suffix_cons _ _)))]
      rw [List.replicate_succ, List.cons_append]
      exact congrArg _ (countNl_split cs).symm
    · rw [collapseNl_cons c cs hc,
        collapseNl_of_noLongRun cs (noLongRun_mono h (List.suffix_cons _ _))]
termination_by l => l.length
decreasing_by
  · exact Nat.lt_succ_of_le (dropNl_length cs)
  · simp

/-- Every newline run in the output of collapseNl has length at most
nine: emitted runs have length five or at most nine, and the remainder
after a run starts with a non-newline. -/
theorem noLongRun_collapseNl : ∀ l : List Char, NoLongRun (collapseNl l)
  | [] => by
    rw [collapseNl_nil]
    intro cs hcs
    simp at hcs
    rw [hcs]
    simp [countNl]
  | c :: cs => by
    by_cases hc : c = '\n'
    · subst hc
      rw [collapseNl_nl cs]
      intro t ht
      have hrep : ∃ k, k ≤ 9 ∧ (if 10 ≤ countNl cs + 1 then List.replicate 5 '\n'
          else List.replicate (countNl cs + 1) '\n') = List.replicate k '\n' := by
        split
        · exact ⟨5, by omega, rfl⟩
        · next hcond => exact ⟨countNl cs + 1, by omega, rfl⟩
      obtain ⟨k, hk9, hk⟩ := hrep
      rw [hk] at ht
      rcases suffix_replicate_append k ht with hsuf | ⟨j, hj, _, htj⟩
      · exact noLongRun_collapseNl (dropNl cs) t hsuf
      · rw [htj, countNl_replicate_append, countNl_collapseNl_dropNl]
        omega
    · rw [collapseNl_cons c cs hc]
      intro t ht
      rcases List.suffix_cons_iff.1 ht with heq | hsuf
      · rw [heq, countNl, if_neg hc]
        omega
      · exact noLongRun_collapseNl cs t hsuf
termination_by l => l.length
decreasing_by
  · exact Nat.lt_succ_of_le (dropNl_length cs)
  · simp

/-- C9: _sanitize_prompt is idempotent.  The output of the first pass is
tag-free (so the tag-stripping pass of the second application is the
identity), has no newline run of length ten or more (so the collapsing
pass is the identity), and is no longer than max_prompt_length (so the
truncation is the identity). -/
theorem sanitize_prompt_idempotent (max_prompt_length : Nat) (s : String) :
    sanitize_prompt max_prompt_length (sanitize_prompt max_prompt_length s)
      = sanitize_prompt max_prompt_length s := by
  unfold sanitize_prompt
  have htl : ((collapseNl (stripTags s.toList)).take max_prompt_length).asString.toList
      = (collapseNl (stripTags s.toList)).take max_prompt_length := rfl
  rw [htl]
  have h1 : stripTags ((collapseNl (stripTags s.toList)).take max_prompt_length)
      = (collapseNl (stripTags s.toList)).take max_prompt_length :=
    stripTags_of_tagfree _
      (tagfree_take (tagfree_collapseNl _ (tagfree_stripTags s.toList)) max_prompt_length)
  have h2 : collapseNl ((collapseNl (stripTags s.toList)).take max_prompt_length)
      = (collapseNl (stripTags s.toList)).take max_prompt_length :=
    collapseNl_of_noLongRun _
      (noLongRun_take (noLongRun_collapseNl (stripTags s.toList)) max_prompt_length)
  rw [h1, h2]
  congr 1
  exact List.take_of_length_le (List.length_take_le _ _)

end AgentSpec
